import Mathlib

/-!
Verification of the checkpoint/backup subsystem of the `publish-packages`
command (`src/tools/src/commands/PublishPackages.ts`).

The JavaScript values stored in work-unit state bags are modelled as trees
whose composite nodes carry an explicit address (`addr`), standing for the
identity of the underlying mutable JavaScript object.  Two values alias
exactly when they share an address.  `JSON.parse(JSON.stringify(x))` is a
deep copy allocating fresh objects, modelled by `cloneV`/`cloneF` which
relabel every address from a fresh-address counter.  The object spread
`\x7b ...a, ...b \x7d` builds a fresh top-level object but copies the field
values by reference, modelled by `spreadMerge`, which keeps the addresses
of the field values unchanged.
-/

mutual

/-- A JavaScript value: a primitive, or a mutable object whose identity is
the address `addr`. -/
inductive JVal where
  | prim (s : String)
  | obj (addr : Nat) (fields : JFields)
deriving DecidableEq, Repr

/-- The ordered field list of a JavaScript object, as used for the
string-keyed state bags of parcels. -/
inductive JFields where
  | fnil
  | fcons (key : String) (val : JVal) (rest : JFields)
deriving DecidableEq, Repr

end

mutual

/-- All object addresses occurring in a value. -/
def JVal.addrs : JVal → List Nat
  | .prim _ => []
  | .obj a fs => a :: fs.addrs

/-- All object addresses occurring in a field list. -/
def JFields.addrs : JFields → List Nat
  | .fnil => []
  | .fcons _ v rest => v.addrs ++ rest.addrs

end

mutual

/-- The structure of a value with the object identities forgotten (every
address set to `0`): what `JSON.stringify` serializes. -/
def JVal.shape : JVal → JVal
  | .prim s => .prim s
  | .obj _ fs => .obj 0 fs.shape

/-- The structure of a field list with the object identities forgotten. -/
def JFields.shape : JFields → JFields
  | .fnil => .fnil
  | .fcons k v rest => .fcons k v.shape rest.shape

end

mutual

/-- `JSON.parse(JSON.stringify(v))`: a deep structural copy of `v` in which
every composite node is a freshly allocated object.  Addresses are drawn
from the counter `n`; the new counter is returned alongside the copy. -/
def cloneV (n : Nat) : JVal → JVal × Nat
  | .prim s => (.prim s, n)
  | .obj _ fs =>
      let r := cloneF (n + 1) fs
      (.obj n r.1, r.2)

/-- Deep structural copy of a field list, threading the fresh-address
counter. -/
def cloneF (n : Nat) : JFields → JFields × Nat
  | .fnil => (.fnil, n)
  | .fcons k v rest =>
      let r := cloneV n v
      let r2 := cloneF r.2 rest
      (.fcons k r.1 r2.1, r2.2)

end

/-- Field lookup: the value of the first field named `k`. -/
def JFields.get : JFields → String → Option JVal
  | .fnil, _ => none
  | .fcons k v rest, k' => if k = k' then some v else rest.get k'

/-- Whether a field named `k` is present. -/
def JFields.hasKey (fs : JFields) (k : String) : Bool :=
  (fs.get k).isSome

/-- Concatenation of field lists. -/
def JFields.append : JFields → JFields → JFields
  | .fnil, b => b
  | .fcons k v rest, b => .fcons k v (rest.append b)

/-- First half of the object spread `\x7b ...a, ...b \x7d`: the fields of
`a` in order, each value replaced by the value of `b` at the same key when
`b` has that key. -/
def overrideWith (b : JFields) : JFields → JFields
  | .fnil => .fnil
  | .fcons k v rest => .fcons k ((b.get k).getD v) (overrideWith b rest)

/-- Second half of the object spread `\x7b ...a, ...b \x7d`: the fields of
`b` whose key does not occur in `a`, in order. -/
def newEntries (a : JFields) : JFields → JFields
  | .fnil => .fnil
  | .fcons k v rest =>
      if a.hasKey k then newEntries a rest else .fcons k v (newEntries a rest)

/-- The object spread `\x7b ...a, ...b \x7d` used by `restoreBackup` as
`\x7b ...parcel.state, ...restoredState \x7d`: a fresh top-level object
whose field values are taken by reference (addresses unchanged) from `b`
where `b` has the key, and from `a` otherwise. -/
def spreadMerge (a b : JFields) : JFields :=
  (overrideWith b a).append (newEntries a b)

/-! ## Data model of the command -/

/-- A package of the monorepo; `packageName` is the identity used by the
packages graph (`graph.getNode`). -/
structure Package where
  packageName : String
deriving DecidableEq, Repr

/-- A work unit (`Parcel`): an external package paired with the mutable
state bag accumulated across tasks. -/
structure Parcel where
  pkg : Package
  state : JFields
deriving DecidableEq, Repr

/-- The invocation options of the `publish-packages` command, one field per
declared commander option, plus `packageNames` which `main` copies from the
positional arguments. -/
structure CommandOptions where
  packageNames : List String
  prerelease : Option String
  tag : String
  retry : Bool
  commitMessage : Option String
  force : Bool
  deps : Bool
  listUnpublished : Bool
  grantAccess : Bool
  checkIntegrity : Bool
  canary : Bool
  skipRepoChecks : Bool
  dry : Bool
deriving DecidableEq, Repr

/-- Modelled from the spec: `pickBackupableOptions` is declared in
`src/publish-packages/helpers`, which is not among the provided sources.
Per the spec, a declared subset of the invocation options is
checkpoint-relevant and the remainder — such as the `retry` flag meaning
"attempt to resume" — is excluded from the compatibility comparison.  The
checkpoint-relevant subset is therefore modelled as every option except
`retry`. -/
structure BackupableOptions where
  packageNames : List String
  prerelease : Option String
  tag : String
  commitMessage : Option String
  force : Bool
  deps : Bool
  listUnpublished : Bool
  grantAccess : Bool
  checkIntegrity : Bool
  canary : Bool
  skipRepoChecks : Bool
  dry : Bool
deriving DecidableEq, Repr

/-- Modelled from the spec: the checkpoint-relevant projection of the
invocation options (see `BackupableOptions`). -/
def pickBackupableOptions (o : CommandOptions) : BackupableOptions :=
  { packageNames := o.packageNames
    prerelease := o.prerelease
    tag := o.tag
    commitMessage := o.commitMessage
    force := o.force
    deps := o.deps
    listUnpublished := o.listUnpublished
    grantAccess := o.grantAccess
    checkIntegrity := o.checkIntegrity
    canary := o.canary
    skipRepoChecks := o.skipRepoChecks
    dry := o.dry }

/-- `jsondiffpatch.diff(a, b)` (external library) returns `undefined`
exactly when the two structures are equal, so `!jsondiffpatch.diff(a, b)`
is structural equality of the two option snapshots. -/
def jsondiffpatchDiffIsEmpty (a b : BackupableOptions) : Bool :=
  decide (a = b)

/-- The payload stored in a backup document by this command:
`\x7b options, head, state \x7d` where `state` maps package names to cloned
state bags. -/
structure PublishBackupData where
  options : BackupableOptions
  head : String
  state : List (String × JFields)
deriving DecidableEq, Repr

/-- A backup document as handed to the hooks by the task runner: the save
timestamp and the (possibly absent) payload data. -/
structure TasksRunnerBackup where
  timestamp : Nat
  data : Option PublishBackupData
deriving DecidableEq, Repr

/-- The `validateBackup` hook: the backup is valid if payload data is
present, the current head commit hash (read from the Git collaborator and
passed here explicitly) equals `backup.data.head`, and
`jsondiffpatch.diff(pickBackupableOptions(options), backup.data.options)`
is empty.  In the source the conjunction `backup.data && ...` short-circuits
to the absent `data` value, which is falsy; this is modelled as `false`. -/
def validateBackup (options : CommandOptions) (headCommitHash : String)
    (backup : TasksRunnerBackup) : Bool :=
  match backup.data with
  | none => false
  | some data =>
      headCommitHash == data.head &&
        jsondiffpatchDiffIsEmpty (pickBackupableOptions options) data.options

/-- `graph.getNode(packageName)`: resolution of a package name against the
packages graph built from `getListOfPackagesAsync()`, i.e. against the
current item universe. -/
def getNode (allPackages : List Package) (packageName : String) : Option Package :=
  allPackages.find? (fun pkg => pkg.packageName == packageName)

/-- The `restoreBackup` hook: for each entry of `backup.data.state`, resolve
the package name via `graph.getNode`; when a node is found, take the parcel
returned by the external `getCachedParcel` lookup, replace its state by the
spread `\x7b ...parcel.state, ...restoredState \x7d` and push it onto the
parcels array; when no node is found the entry is skipped. -/
def restoreFoldStep (getCachedParcel : Package → Parcel)
    (allPackages : List Package) (acc : List Parcel)
    (entry : String × JFields) : List Parcel :=
  match getNode allPackages entry.1 with
  | some node =>
      let parcel := getCachedParcel node
      acc ++ [{ parcel with state := spreadMerge parcel.state entry.2 }]
  | none => acc

/-- See the doc comment above `restoreFoldStep`: the loop of
`restoreBackup` over the entries of `backup.data.state`. -/
def restoreBackup (getCachedParcel : Package → Parcel)
    (allPackages : List Package) (backupState : List (String × JFields))
    (parcels : List Parcel) : List Parcel :=
  backupState.foldl (restoreFoldStep getCachedParcel allPackages) parcels

/-- JavaScript property assignment `data.state[name] = bag` on a
string-keyed object represented as an ordered entry list: replace the value
at an existing key in place, otherwise append the new entry at the end. -/
def stateInsert : List (String × JFields) → String → JFields → List (String × JFields)
  | [], k, v => [(k, v)]
  | e :: rest, k, v =>
      if e.1 = k then (k, v) :: rest else e :: stateInsert rest k v

/-- The loop body of `createBackupData`:
`data.state[pkg.packageName] = JSON.parse(JSON.stringify(state))`, with the
fresh-address counter threaded through the clone. -/
def backupFoldStep (acc : PublishBackupData × Nat) (parcel : Parcel) :
    PublishBackupData × Nat :=
  let r := cloneF acc.2 parcel.state
  ({ acc.1 with
      state := stateInsert acc.1.state parcel.pkg.packageName r.1 }, r.2)

/-- The `createBackupData` hook: the payload holds the checkpoint-relevant
option snapshot, the current head commit hash (read from the Git
collaborator and passed here explicitly), and a state map assigning to each
parcel the deep clone `JSON.parse(JSON.stringify(state))` of its state bag,
keyed by `pkg.packageName`.  Fresh object addresses for the clones are
drawn from the counter `heapNext`. -/
def createBackupData (options : CommandOptions) (headCommitHash : String)
    (parcels : List Parcel) (heapNext : Nat) : PublishBackupData × Nat :=
  parcels.foldl backupFoldStep
    ({ options := pickBackupableOptions options, head := headCommitHash,
       state := [] }, heapNext)

/-- All object addresses reachable from the live parcels. -/
def parcelsAddrs : List Parcel → List Nat
  | [] => []
  | p :: rest => p.state.addrs ++ parcelsAddrs rest

/-- All object addresses reachable from a checkpoint state map. -/
def stateAddrs : List (String × JFields) → List Nat
  | [] => []
  | e :: rest => e.2.addrs ++ stateAddrs rest

/-- The package names of a parcel collection. -/
def parcelNames (parcels : List Parcel) : List String :=
  parcels.map (fun p => p.pkg.packageName)

/-- The task values `tasksForOptions` chooses between (the task modules
themselves are external pipeline stages). -/
inductive PublishTask where
  | listUnpublished
  | grantTeamAccessToPackages
  | checkPackagesIntegrity
  | publishCanaryPipeline
  | publishPackagesPipeline
deriving DecidableEq, Repr

/-- `tasksForOptions`: returns the target task list based on the command
options, testing the exclusive mode flags in source order. -/
def tasksForOptions (options : CommandOptions) : List PublishTask :=
  if options.listUnpublished then [.listUnpublished]
  else if options.grantAccess then [.grantTeamAccessToPackages]
  else if options.checkIntegrity then [.checkPackagesIntegrity]
  else if options.canary then [.publishCanaryPipeline]
  else [.publishPackagesPipeline]

/-- The first statement of `main`: `options.packageNames = packageNames`,
copying the positional command arguments into the options object. -/
def mainSetPackageNames (packageNames : List String)
    (options : CommandOptions) : CommandOptions :=
  { options with packageNames := packageNames }

/-- The warning emitted by the `backupValidationFailed` hook (apostrophe of
the source text elided). -/
def backupValidationFailedMsg : String :=
  "Found backup file but the command has been run with different options. Continuing from scratch..."

/-- The info line emitted by `restoreBackup` before restoring, with the
backup timestamp rendered as text. -/
def restoreLogMsg (timestamp : Nat) : String :=
  "Restoring from backup saved on " ++ toString timestamp ++ "..."

/-- The mutable state visible to `main` and its task-runner hooks: the
options object, the live parcels, the last saved backup document, the
selected tasks, a fresh-address counter for clone allocation, and the log
output. -/
structure RunState where
  options : CommandOptions
  parcels : List Parcel
  backup : Option TasksRunnerBackup
  tasks : List PublishTask
  heapNext : Nat
  log : List String
deriving DecidableEq, Repr

/-- The operations `main` and the task runner perform on the run state:
the entry assignment of `packageNames`, task selection, and the five
backup hooks (`shouldUseBackup` reads only the `retry` option). -/
inductive RunOp where
  | setPackageNames (packageNames : List String)
  | selectTasks
  | validate (headCommitHash : String)
  | shouldUse
  | createData (headCommitHash : String) (timestamp : Nat)
  | restore
  | validationFailed
deriving DecidableEq, Repr

/-- Whether an operation is the entry assignment of `packageNames`. -/
def RunOp.isSetPackageNames : RunOp → Bool
  | .setPackageNames _ => true
  | _ => false

/-- The `backupValidationFailed` hook: logs a warning and touches nothing
else. -/
def backupValidationFailedStep (s : RunState) : RunState :=
  { s with log := s.log ++ [backupValidationFailedMsg] }

/-- One operation applied to the run state.  `validate` and `shouldUse`
only read the state (their boolean verdicts are returned to the task
runner); `createData` builds a payload and advances the allocation counter;
`restore` applies the saved backup to the parcels array (the task runner
only invokes it after a successful validation, so payload data is
present). -/
def runOpStep (getCachedParcel : Package → Parcel)
    (allPackages : List Package) : RunOp → RunState → RunState
  | .setPackageNames ns, s =>
      { s with options := mainSetPackageNames ns s.options }
  | .selectTasks, s => { s with tasks := tasksForOptions s.options }
  | .validate _, s => s
  | .shouldUse, s => s
  | .createData headCommitHash ts, s =>
      let r := createBackupData s.options headCommitHash s.parcels s.heapNext
      { s with backup := some { timestamp := ts, data := some r.1 },
               heapNext := r.2 }
  | .restore, s =>
      match s.backup with
      | some backup =>
          match backup.data with
          | some data =>
              { s with
                  parcels := restoreBackup getCachedParcel allPackages
                    data.state s.parcels,
                  log := s.log ++ [restoreLogMsg backup.timestamp] }
          | none => s
      | none => s
  | .validationFailed, s => backupValidationFailedStep s

/-- A sequence of run operations applied in order. -/
def runOps (getCachedParcel : Package → Parcel) (allPackages : List Package)
    (ops : List RunOp) (s : RunState) : RunState :=
  ops.foldl (fun acc op => runOpStep getCachedParcel allPackages op acc) s

/-- A concrete package used by witnesses. -/
def pkgA : Package := { packageName := "pkgA" }

/-- A concrete external parcel lookup for witnesses: a default work unit
with an empty state bag. -/
def gcpEx : Package → Parcel := fun pkg => { pkg := pkg, state := .fnil }

/-- A concrete checkpoint state map for `"pkgA"` whose bag holds one
mutable object, at address 5. -/
def backupStateEx : List (String × JFields) :=
  [("pkgA", .fcons "x" (.obj 5 .fnil) .fnil)]

/-- Concrete invocation options used by witnesses. -/
def optionsEx : CommandOptions :=
  { packageNames := ["expo-gl"], prerelease := none, tag := "next",
    retry := true, commitMessage := none, force := false, deps := true,
    listUnpublished := false, grantAccess := false, checkIntegrity := false,
    canary := false, skipRepoChecks := false, dry := false }

/-- A concrete parcel collection for witnesses: one parcel for `pkgA`
whose live state bag holds a mutable object at address 2. -/
def parcelsEx : List Parcel :=
  [{ pkg := pkgA, state := .fcons "y" (.obj 2 .fnil) .fnil }]

/-- A concrete external parcel lookup whose default work units carry a
nonempty default state bag, to exhibit the restore merge. -/
def gcpDefaultEx : Package → Parcel :=
  fun pkg =>
    { pkg := pkg,
      state := .fcons "version" (.prim "1.0.0")
        (.fcons "published" (.prim "no") .fnil) }

/-- A concrete run state used by witnesses. -/
def runStateEx : RunState :=
  { options := optionsEx, parcels := parcelsEx, backup := none,
    tasks := [], heapNext := 3, log := [] }

/-- A concrete operation sequence containing every operation of a run
except the entry assignment of `packageNames`. -/
def runOpsEx : List RunOp :=
  [.selectTasks, .validate "abc123", .shouldUse, .createData "abc123" 7,
   .restore, .validationFailed]

/-! ## Claims about `validateBackup` -/

/-- C1: `validateBackup` returns true iff payload data is present, the
current repository head commit hash equals the recorded head, and the
structural diff between the checkpoint-relevant option subset and the
recorded options is empty. -/
theorem validateBackup_iff (options : CommandOptions) (headCommitHash : String)
    (backup : TasksRunnerBackup) :
    validateBackup options headCommitHash backup = true ↔
      ∃ data, backup.data = some data ∧ headCommitHash = data.head ∧
        pickBackupableOptions options = data.options := by
  cases h : backup.data with
  | none => simp [validateBackup, h]
  | some data =>
      simp [validateBackup, h, jsondiffpatchDiffIsEmpty]

/-- Witness for C1 at a concrete backup and options value. -/
theorem validateBackup_iff_witness :
    validateBackup
      { packageNames := ["expo-gl"], prerelease := none, tag := "next",
        retry := true, commitMessage := none, force := false, deps := true,
        listUnpublished := false, grantAccess := false, checkIntegrity := false,
        canary := false, skipRepoChecks := false, dry := false }
      "abc123"
      { timestamp := 0,
        data := some
          { options :=
              { packageNames := ["expo-gl"], prerelease := none, tag := "next",
                commitMessage := none, force := false, deps := true,
                listUnpublished := false, grantAccess := false,
                checkIntegrity := false, canary := false,
                skipRepoChecks := false, dry := false },
            head := "abc123", state := [] } } = true :=
  (validateBackup_iff _ _ _).mpr ⟨_, rfl, rfl, rfl⟩

/-- C10: a backup whose payload data is absent is never valid: the
short-circuit on `backup.data` yields a falsy result without dereferencing
the missing payload. -/
theorem validateBackup_missing_data (options : CommandOptions)
    (headCommitHash : String) (timestamp : Nat) :
    validateBackup options headCommitHash { timestamp, data := none } = false :=
  rfl

/-- C5: `validateBackup` depends on the options only through their
checkpoint-relevant projection: options with equal projections get the same
verdict; in particular flipping the (non-relevant) `retry` flag never
changes the verdict, while any change visible in the projection turns a
true verdict false. -/
theorem validateBackup_noninterference (o1 o2 : CommandOptions)
    (headCommitHash : String) (backup : TasksRunnerBackup) (b : Bool) :
    (pickBackupableOptions o1 = pickBackupableOptions o2 →
      validateBackup o1 headCommitHash backup =
        validateBackup o2 headCommitHash backup) ∧
    (validateBackup { o1 with retry := b } headCommitHash backup =
      validateBackup o1 headCommitHash backup) ∧
    (validateBackup o1 headCommitHash backup = true →
      pickBackupableOptions o1 ≠ pickBackupableOptions o2 →
      validateBackup o2 headCommitHash backup = false) := by
  have hdep : ∀ (oa ob : CommandOptions),
      pickBackupableOptions oa = pickBackupableOptions ob →
      validateBackup oa headCommitHash backup =
        validateBackup ob headCommitHash backup := by
    intro oa ob h
    cases hb : backup.data with
    | none => simp [validateBackup, hb]
    | some data => simp [validateBackup, hb, jsondiffpatchDiffIsEmpty, h]
  refine ⟨hdep o1 o2, hdep _ o1 rfl, ?_⟩
  intro htrue hne
  rcases (validateBackup_iff o1 headCommitHash backup).mp htrue with
    ⟨data, hdata, hhead, hopts⟩
  cases hv : validateBackup o2 headCommitHash backup with
  | false => rfl
  | true =>
      rcases (validateBackup_iff o2 headCommitHash backup).mp hv with
        ⟨data2, hdata2, _, hopts2⟩
      rw [hdata] at hdata2
      cases hdata2
      exact absurd (hopts.trans hopts2.symm) hne

/-- Witness for C5: flipping `retry` on concrete options leaves the verdict
of `validateBackup` unchanged against a concrete backup. -/
theorem validateBackup_noninterference_witness :
    validateBackup
      { packageNames := [], prerelease := none, tag := "next", retry := true,
        commitMessage := none, force := false, deps := true,
        listUnpublished := false, grantAccess := false, checkIntegrity := false,
        canary := false, skipRepoChecks := false, dry := false }
      "abc123" { timestamp := 5, data := none } =
    validateBackup
      { packageNames := [], prerelease := none, tag := "next", retry := false,
        commitMessage := none, force := false, deps := true,
        listUnpublished := false, grantAccess := false, checkIntegrity := false,
        canary := false, skipRepoChecks := false, dry := false }
      "abc123" { timestamp := 5, data := none } :=
  (validateBackup_noninterference
    { packageNames := [], prerelease := none, tag := "next", retry := false,
      commitMessage := none, force := false, deps := true,
      listUnpublished := false, grantAccess := false, checkIntegrity := false,
      canary := false, skipRepoChecks := false, dry := false }
    { packageNames := [], prerelease := none, tag := "next", retry := false,
      commitMessage := none, force := false, deps := true,
      listUnpublished := false, grantAccess := false, checkIntegrity := false,
      canary := false, skipRepoChecks := false, dry := false }
    "abc123" { timestamp := 5, data := none } true).2.1

/-! ## Helper lemmas about cloning and the object spread -/

mutual

/-- The clone counter never decreases. -/
theorem cloneV_le (n : Nat) (v : JVal) : n ≤ (cloneV n v).2 := by
  cases v with
  | prim s => simp [cloneV]
  | obj a fs =>
      simp only [cloneV]
      have h := cloneF_le (n + 1) fs
      omega

/-- The clone counter never decreases (field-list version). -/
theorem cloneF_le (n : Nat) (fs : JFields) : n ≤ (cloneF n fs).2 := by
  cases fs with
  | fnil => simp [cloneF]
  | fcons k v rest =>
      simp only [cloneF]
      have h1 := cloneV_le n v
      have h2 := cloneF_le (cloneV n v).2 rest
      omega

end

mutual

/-- Every object of a clone is freshly allocated: its address is at least
the starting counter. -/
theorem cloneV_addrs_ge (n : Nat) (v : JVal) :
    ∀ a ∈ (cloneV n v).1.addrs, n ≤ a := by
  cases v with
  | prim s =>
      intro a ha
      simp [cloneV, JVal.addrs] at ha
  | obj a0 fs =>
      intro a ha
      simp only [cloneV, JVal.addrs, List.mem_cons] at ha
      rcases ha with rfl | ha
      · exact Nat.le_refl a
      · have h := cloneF_addrs_ge (n + 1) fs a ha
        omega

/-- Every object of a cloned field list is freshly allocated. -/
theorem cloneF_addrs_ge (n : Nat) (fs : JFields) :
    ∀ a ∈ (cloneF n fs).1.addrs, n ≤ a := by
  cases fs with
  | fnil =>
      intro a ha
      simp [cloneF, JFields.addrs] at ha
  | fcons k v rest =>
      intro a ha
      simp only [cloneF, JFields.addrs, List.mem_append] at ha
      rcases ha with ha | ha
      · exact cloneV_addrs_ge n v a ha
      · have h1 := cloneV_le n v
        have h2 := cloneF_addrs_ge (cloneV n v).2 rest a ha
        omega

end

mutual

/-- Cloning preserves the structure of a value. -/
theorem cloneV_shape (n : Nat) (v : JVal) : (cloneV n v).1.shape = v.shape := by
  cases v with
  | prim s => rfl
  | obj a0 fs =>
      simp only [cloneV, JVal.shape]
      exact congrArg (JVal.obj 0) (cloneF_shape (n + 1) fs)

/-- Cloning preserves the structure of a field list. -/
theorem cloneF_shape (n : Nat) (fs : JFields) :
    (cloneF n fs).1.shape = fs.shape := by
  cases fs with
  | fnil => rfl
  | fcons k v rest =>
      simp only [cloneF, JFields.shape]
      rw [cloneV_shape n v, cloneF_shape (cloneV n v).2 rest]

end

/-- Lookup in a concatenation, when the left part has the key. -/
theorem JFields.get_append_some (a b : JFields) (k : String) (v : JVal)
    (h : a.get k = some v) : (a.append b).get k = some v := by
  cases a with
  | fnil => simp [JFields.get] at h
  | fcons k0 v0 rest =>
      by_cases hk : k0 = k
      · simp only [JFields.get, if_pos hk] at h
        simp only [JFields.append, JFields.get, if_pos hk]
        exact h
      · simp only [JFields.get, if_neg hk] at h
        simp only [JFields.append, JFields.get, if_neg hk]
        exact JFields.get_append_some rest b k v h

/-- Lookup in a concatenation, when the left part lacks the key. -/
theorem JFields.get_append_none (a b : JFields) (k : String)
    (h : a.get k = none) : (a.append b).get k = b.get k := by
  cases a with
  | fnil => rfl
  | fcons k0 v0 rest =>
      by_cases hk : k0 = k
      · simp [JFields.get, if_pos hk] at h
      · simp only [JFields.get, if_neg hk] at h
        simp only [JFields.append, JFields.get, if_neg hk]
        exact JFields.get_append_none rest b k h

/-- Lookup in the overridden first half of a spread. -/
theorem overrideWith_get (b a : JFields) (k : String) :
    (overrideWith b a).get k = (a.get k).map (fun v => (b.get k).getD v) := by
  cases a with
  | fnil => rfl
  | fcons k0 v0 rest =>
      by_cases hk : k0 = k
      · subst hk
        simp [overrideWith, JFields.get]
      · simp only [overrideWith, JFields.get, if_neg hk]
        exact overrideWith_get b rest k

/-- Lookup in the second half of a spread, for keys the first operand does
not have. -/
theorem newEntries_get (a b : JFields) (k : String)
    (h : a.hasKey k = false) : (newEntries a b).get k = b.get k := by
  cases b with
  | fnil => rfl
  | fcons k0 v0 rest =>
      by_cases hk : k0 = k
      · subst hk
        have he : newEntries a (.fcons k0 v0 rest) =
            .fcons k0 v0 (newEntries a rest) := by
          simp [newEntries, h]
        rw [he]
        simp [JFields.get]
      · cases ha : a.hasKey k0 with
        | true =>
            have he : newEntries a (.fcons k0 v0 rest) = newEntries a rest := by
              simp [newEntries, ha]
            rw [he, newEntries_get a rest k h]
            simp [JFields.get, if_neg hk]
        | false =>
            have he : newEntries a (.fcons k0 v0 rest) =
                .fcons k0 v0 (newEntries a rest) := by
              simp [newEntries, ha]
            rw [he]
            simp only [JFields.get, if_neg hk]
            exact newEntries_get a rest k h

/-- A key present in the second operand of a spread keeps exactly the value
(the same object, address included) it has there. -/
theorem spreadMerge_get_some (a b : JFields) (k : String) (v : JVal)
    (h : b.get k = some v) : (spreadMerge a b).get k = some v := by
  unfold spreadMerge
  cases ha : a.get k with
  | some w =>
      have h1 : (overrideWith b a).get k = some v := by
        rw [overrideWith_get, ha]
        simp [h]
      exact JFields.get_append_some _ _ _ _ h1
  | none =>
      have h1 : (overrideWith b a).get k = none := by
        rw [overrideWith_get, ha]
        rfl
      rw [JFields.get_append_none _ _ _ h1]
      have hk : a.hasKey k = false := by
        simp [JFields.hasKey, ha]
      rw [newEntries_get a b k hk]
      exact h

/-- A key absent from the second operand of a spread keeps the value of the
first operand. -/
theorem spreadMerge_get_none (a b : JFields) (k : String)
    (h : b.get k = none) : (spreadMerge a b).get k = a.get k := by
  unfold spreadMerge
  cases ha : a.get k with
  | some w =>
      have h1 : (overrideWith b a).get k = some w := by
        rw [overrideWith_get, ha]
        simp [h]
      rw [JFields.get_append_some _ _ _ _ h1]
  | none =>
      have h1 : (overrideWith b a).get k = none := by
        rw [overrideWith_get, ha]
        rfl
      rw [JFields.get_append_none _ _ _ h1]
      have hk : a.hasKey k = false := by
        simp [JFields.hasKey, ha]
      rw [newEntries_get a b k hk]
      exact h

/-! ## Helper lemmas about `restoreBackup` and `createBackupData` -/

/-- Unfolding one loop iteration of `restoreBackup`. -/
theorem restoreBackup_cons (getCachedParcel : Package → Parcel)
    (allPackages : List Package) (e : String × JFields)
    (bs : List (String × JFields)) (ps : List Parcel) :
    restoreBackup getCachedParcel allPackages (e :: bs) ps =
      restoreBackup getCachedParcel allPackages bs
        (restoreFoldStep getCachedParcel allPackages ps e) := rfl

/-- A resolved entry appends the merged parcel. -/
theorem restoreFoldStep_some (getCachedParcel : Package → Parcel)
    (allPackages : List Package) (acc : List Parcel) (e : String × JFields)
    (node : Package) (h : getNode allPackages e.1 = some node) :
    restoreFoldStep getCachedParcel allPackages acc e =
      acc ++ [{ pkg := (getCachedParcel node).pkg,
                  state := spreadMerge (getCachedParcel node).state e.2 }] := by
  simp [restoreFoldStep, h]

/-- An unresolved entry leaves the parcels untouched. -/
theorem restoreFoldStep_none (getCachedParcel : Package → Parcel)
    (allPackages : List Package) (acc : List Parcel) (e : String × JFields)
    (h : getNode allPackages e.1 = none) :
    restoreFoldStep getCachedParcel allPackages acc e = acc := by
  simp [restoreFoldStep, h]

/-- `restoreBackup` only appends: the initial parcels stay as a prefix. -/
theorem restoreBackup_eq_append (getCachedParcel : Package → Parcel)
    (allPackages : List Package) (bs : List (String × JFields)) :
    ∀ ps : List Parcel,
      restoreBackup getCachedParcel allPackages bs ps =
        ps ++ restoreBackup getCachedParcel allPackages bs [] := by
  induction bs with
  | nil => intro ps; simp [restoreBackup]
  | cons e bs ih =>
      intro ps
      rw [restoreBackup_cons, restoreBackup_cons]
      cases hg : getNode allPackages e.1 with
      | some node =>
          rw [restoreFoldStep_some getCachedParcel allPackages ps e node hg,
              restoreFoldStep_some getCachedParcel allPackages [] e node hg,
              ih, ih]
          simp
          conv_rhs => rw [ih]
          simp
      | none =>
          rw [restoreFoldStep_none getCachedParcel allPackages ps e hg,
              restoreFoldStep_none getCachedParcel allPackages [] e hg,
              ih ps]

/-- Every resolved entry of the backup state contributes its merged parcel
to the result of `restoreBackup`. -/
theorem restoreBackup_mem_of_resolved (getCachedParcel : Package → Parcel)
    (allPackages : List Package) (bs : List (String × JFields))
    (name : String) (node : Package) (rs : JFields)
    (hres : getNode allPackages name = some node) :
    (name, rs) ∈ bs → ∀ ps : List Parcel,
      { pkg := (getCachedParcel node).pkg,
          state := spreadMerge (getCachedParcel node).state rs } ∈
        restoreBackup getCachedParcel allPackages bs ps := by
  induction bs with
  | nil => intro h; cases h
  | cons e bs ih =>
      intro hmem ps
      rw [restoreBackup_cons]
      rcases List.mem_cons.mp hmem with he | hbs
      · cases he.symm
        rw [restoreFoldStep_some getCachedParcel allPackages ps (name, rs)
              node hres]
        rw [restoreBackup_eq_append]
        simp
      · exact ih hbs (restoreFoldStep getCachedParcel allPackages ps e)

/-- `parcelNames` distributes over concatenation. -/
theorem parcelNames_append (a b : List Parcel) :
    parcelNames (a ++ b) = parcelNames a ++ parcelNames b := by
  simp [parcelNames]

/-- Every package name in the result of `restoreBackup` either was already
among the given parcels or resolves in the current package universe
(assuming the external lookup returns a parcel for the requested node). -/
theorem restoreBackup_names (getCachedParcel : Package → Parcel)
    (allPackages : List Package)
    (hgcp : ∀ node, (getCachedParcel node).pkg = node)
    (bs : List (String × JFields)) :
    ∀ (ps : List Parcel) (nm : String),
      nm ∈ parcelNames (restoreBackup getCachedParcel allPackages bs ps) →
      nm ∈ parcelNames ps ∨ (getNode allPackages nm).isSome = true := by
  induction bs with
  | nil => intro ps nm h; exact Or.inl h
  | cons e bs ih =>
      intro ps nm h
      rw [restoreBackup_cons] at h
      cases hg : getNode allPackages e.1 with
      | none =>
          rw [restoreFoldStep_none getCachedParcel allPackages ps e hg] at h
          exact ih ps nm h
      | some node =>
          rw [restoreFoldStep_some getCachedParcel allPackages ps e node hg]
            at h
          rcases ih _ nm h with hin | hres
      -- the name is among the extended accumulator, or resolves already
          · rw [parcelNames_append] at hin
            rcases List.mem_append.mp hin with hin | hin
            · exact Or.inl hin
            · simp only [parcelNames, List.map_cons, List.map_nil,
                List.mem_singleton] at hin
              subst hin
              rw [hgcp node]
              right
              have hmem : node ∈ allPackages :=
                List.mem_of_find?_eq_some hg
              rcases hfind : getNode allPackages node.packageName with hnone | _
              · exfalso
                have := List.find?_eq_none.mp hfind node hmem
                simp at this
              · rfl
          · exact Or.inr hres

/-- Entries of the state map after a JavaScript property assignment: each
is an old entry or the assigned one. -/
theorem stateInsert_mem (st : List (String × JFields)) (k : String)
    (v : JFields) :
    ∀ e ∈ stateInsert st k v, e ∈ st ∨ e = (k, v) := by
  induction st with
  | nil =>
      intro e he
      simp only [stateInsert, List.mem_singleton] at he
      exact Or.inr he
  | cons e0 rest ih =>
      intro e he
      by_cases hk : e0.1 = k
      · simp only [stateInsert, if_pos hk] at he
        rcases List.mem_cons.mp he with h | h
        · exact Or.inr h
        · exact Or.inl (List.mem_cons_of_mem _ h)
      · simp only [stateInsert, if_neg hk] at he
        rcases List.mem_cons.mp he with h | h
        · exact Or.inl (h ▸ List.mem_cons_self _ _)
        · rcases ih e h with h1 | h2
          · exact Or.inl (List.mem_cons_of_mem _ h1)
          · exact Or.inr h2

/-- Keys of the state map after a JavaScript property assignment. -/
theorem stateInsert_key (st : List (String × JFields)) (k : String)
    (v : JFields) (k' : String) :
    (∃ bag, (k', bag) ∈ stateInsert st k v) ↔
      (∃ bag, (k', bag) ∈ st) ∨ k' = k := by
  induction st with
  | nil => simp [stateInsert]
  | cons e0 rest ih =>
      obtain ⟨k0, v0⟩ := e0
      by_cases hk : k0 = k
      · subst hk
        have hs : stateInsert ((k0, v0) :: rest) k0 v = (k0, v) :: rest := by
          simp [stateInsert]
        rw [hs]
        simp only [List.mem_cons, Prod.mk.injEq]
        constructor
        · rintro ⟨bag, ⟨h1, h2⟩ | h⟩
          · exact Or.inr h1
          · exact Or.inl ⟨bag, Or.inr h⟩
        · rintro (⟨bag, ⟨h1, h2⟩ | h⟩ | h1)
          · exact ⟨v, Or.inl ⟨h1, rfl⟩⟩
          · exact ⟨bag, Or.inr h⟩
          · exact ⟨v, Or.inl ⟨h1, rfl⟩⟩
      · have hs : stateInsert ((k0, v0) :: rest) k v =
            (k0, v0) :: stateInsert rest k v := by
          simp [stateInsert, hk]
        rw [hs]
        simp only [List.mem_cons, Prod.mk.injEq]
        constructor
        · rintro ⟨bag, ⟨h1, h2⟩ | h⟩
          · exact Or.inl ⟨bag, Or.inl ⟨h1, h2⟩⟩
          · rcases ih.mp ⟨bag, h⟩ with ⟨bag2, h3⟩ | h3
            · exact Or.inl ⟨bag2, Or.inr h3⟩
            · exact Or.inr h3
        · rintro (⟨bag, ⟨h1, h2⟩ | h⟩ | h1)
          · exact ⟨bag, Or.inl ⟨h1, h2⟩⟩
          · rcases ih.mpr (Or.inl ⟨bag, h⟩) with ⟨bag2, h3⟩
            exact ⟨bag2, Or.inr h3⟩
          · rcases ih.mpr (Or.inr h1) with ⟨bag2, h3⟩
            exact ⟨bag2, Or.inr h3⟩

/-- Invariant of the `createBackupData` loop: the counter never decreases,
the payload options and head are untouched, and every state entry is either
inherited from the accumulator or the fresh clone of the bag of one of the
processed parcels. -/
theorem backupFold_spec (parcels : List Parcel) :
    ∀ acc : PublishBackupData × Nat,
      acc.2 ≤ (parcels.foldl backupFoldStep acc).2 ∧
      (parcels.foldl backupFoldStep acc).1.options = acc.1.options ∧
      (parcels.foldl backupFoldStep acc).1.head = acc.1.head ∧
      ∀ e ∈ (parcels.foldl backupFoldStep acc).1.state,
        e ∈ acc.1.state ∨
        ∃ parcel ∈ parcels, e.1 = parcel.pkg.packageName ∧
          e.2.shape = parcel.state.shape ∧ ∀ a ∈ e.2.addrs, acc.2 ≤ a := by
  induction parcels with
  | nil =>
      intro acc
      exact ⟨Nat.le_refl _, rfl, rfl, fun e he => Or.inl he⟩
  | cons parcel rest ih =>
      intro acc
      obtain ⟨h1, h2, h3, h4⟩ := ih (backupFoldStep acc parcel)
      have hstep2 : acc.2 ≤ (backupFoldStep acc parcel).2 :=
        cloneF_le acc.2 parcel.state
      refine ⟨?_, ?_, ?_, ?_⟩
      · rw [List.foldl_cons]
        omega
      · rw [List.foldl_cons, h2]
        rfl
      · rw [List.foldl_cons, h3]
        rfl
      · intro e he
        rw [List.foldl_cons] at he
        rcases h4 e he with hacc | ⟨q, hq, hname, hshape, haddr⟩
        · rcases stateInsert_mem _ _ _ e hacc with hin | heq
          · exact Or.inl hin
          · right
            refine ⟨parcel, List.mem_cons_self _ _, ?_, ?_, ?_⟩
            · rw [heq]
            · rw [heq]
              exact cloneF_shape acc.2 parcel.state
            · intro a ha
              rw [heq] at ha
              exact cloneF_addrs_ge acc.2 parcel.state a ha
        · exact Or.inr ⟨q, List.mem_cons_of_mem _ hq, hname, hshape,
            fun a ha => Nat.le_trans hstep2 (haddr a ha)⟩

/-- Keys of the state map built by the `createBackupData` loop: the keys of
the accumulator plus the package names of the processed parcels. -/
theorem backupFold_keys (parcels : List Parcel) :
    ∀ (acc : PublishBackupData × Nat) (k : String),
      (∃ bag, (k, bag) ∈ (parcels.foldl backupFoldStep acc).1.state) ↔
        (∃ bag, (k, bag) ∈ acc.1.state) ∨ k ∈ parcelNames parcels := by
  induction parcels with
  | nil => intro acc k; simp [parcelNames]
  | cons parcel rest ih =>
      intro acc k
      rw [List.foldl_cons, ih]
      have hins := stateInsert_key acc.1.state parcel.pkg.packageName
        (cloneF acc.2 parcel.state).1 k
      simp only [backupFoldStep] at *
      rw [hins]
      simp only [parcelNames, List.map_cons, List.mem_cons]
      tauto

/-- Restoring only the resolvable entries gives the same result: entries
that do not resolve never influence the outcome. -/
theorem restoreBackup_filter_resolvable (getCachedParcel : Package → Parcel)
    (allPackages : List Package) (bs : List (String × JFields)) :
    ∀ ps : List Parcel,
      restoreBackup getCachedParcel allPackages
          (bs.filter (fun e => (getNode allPackages e.1).isSome)) ps =
        restoreBackup getCachedParcel allPackages bs ps := by
  induction bs with
  | nil => intro ps; rfl
  | cons e bs ih =>
      intro ps
      cases hg : getNode allPackages e.1 with
      | some node =>
          have hf : List.filter (fun e => (getNode allPackages e.1).isSome)
              (e :: bs) =
              e :: List.filter (fun e => (getNode allPackages e.1).isSome) bs := by
            simp [List.filter_cons, hg]
          rw [hf, restoreBackup_cons, restoreBackup_cons, ih]
      | none =>
          have hf : List.filter (fun e => (getNode allPackages e.1).isSome)
              (e :: bs) =
              List.filter (fun e => (getNode allPackages e.1).isSome) bs := by
            simp [List.filter_cons, hg]
          rw [hf, ih ps, restoreBackup_cons,
            restoreFoldStep_none getCachedParcel allPackages ps e hg]

/-! ## Claims about `restoreBackup` and `createBackupData` -/

/-- C3: an entry of the backup state whose package name does not resolve in
the current package universe is dropped by `restoreBackup` without raising:
the resulting parcel collection has no parcel of that name, and the result
equals the restore of the resolvable entries alone, so resolvable entries
are unaffected.  The external parcel lookup is assumed to return a work
unit for the requested node. -/
theorem restoreBackup_tolerates_gaps (getCachedParcel : Package → Parcel)
    (allPackages : List Package) (bs : List (String × JFields))
    (ps : List Parcel) (name : String)
    (hgcp : ∀ node, (getCachedParcel node).pkg = node)
    (hnone : getNode allPackages name = none)
    (hps : name ∉ parcelNames ps) :
    name ∉ parcelNames (restoreBackup getCachedParcel allPackages bs ps) ∧
    restoreBackup getCachedParcel allPackages
        (bs.filter (fun e => (getNode allPackages e.1).isSome)) ps =
      restoreBackup getCachedParcel allPackages bs ps := by
  refine ⟨?_, restoreBackup_filter_resolvable getCachedParcel allPackages bs ps⟩
  intro hmem
  rcases restoreBackup_names getCachedParcel allPackages hgcp bs ps name hmem
    with h | h
  · exact hps h
  · rw [hnone] at h
    simp at h

/-- Witness for C3: restoring a backup that references the absent package
`"old-pkg"` silently drops it and keeps the resolvable entry intact. -/
theorem restoreBackup_tolerates_gaps_witness :
    "old-pkg" ∉ parcelNames (restoreBackup gcpEx [pkgA]
        [("old-pkg", JFields.fnil), ("pkgA", JFields.fnil)] []) ∧
    restoreBackup gcpEx [pkgA]
        (([("old-pkg", JFields.fnil), ("pkgA", JFields.fnil)]).filter
          (fun e => (getNode [pkgA] e.1).isSome)) [] =
      restoreBackup gcpEx [pkgA]
        [("old-pkg", JFields.fnil), ("pkgA", JFields.fnil)] [] :=
  restoreBackup_tolerates_gaps gcpEx [pkgA]
    [("old-pkg", JFields.fnil), ("pkgA", JFields.fnil)] [] "old-pkg"
    (fun _ => rfl) (by decide) (by decide)

/-- C4: a resolvable entry of the backup state yields a restored parcel,
appended to the collection, whose state is the shallow merge of the default
state of the externally looked-up work unit with the persisted bag, the
persisted fields taking precedence. -/
theorem restoreBackup_merge_semantics (getCachedParcel : Package → Parcel)
    (allPackages : List Package) (bs : List (String × JFields))
    (ps : List Parcel) (name : String) (node : Package) (rs : JFields)
    (hres : getNode allPackages name = some node)
    (hmem : (name, rs) ∈ bs) :
    ∃ p ∈ restoreBackup getCachedParcel allPackages bs ps,
      p.pkg = (getCachedParcel node).pkg ∧
      p.state = spreadMerge (getCachedParcel node).state rs ∧
      (∀ k v, rs.get k = some v → p.state.get k = some v) ∧
      (∀ k, rs.get k = none →
        p.state.get k = (getCachedParcel node).state.get k) :=
  ⟨{ pkg := (getCachedParcel node).pkg,
     state := spreadMerge (getCachedParcel node).state rs },
   restoreBackup_mem_of_resolved getCachedParcel allPackages bs name node rs
     hres hmem ps,
   rfl, rfl,
   fun _ _ h => spreadMerge_get_some _ _ _ _ h,
   fun _ h => spreadMerge_get_none _ _ _ h⟩

/-- Witness for C4: restoring `version = "1.2.0"` over a default work unit
with `version = "1.0.0"` keeps the restored value and the untouched default
field. -/
theorem restoreBackup_merge_semantics_witness :
    ∃ p ∈ restoreBackup gcpDefaultEx [pkgA]
        [("pkgA", JFields.fcons "version" (JVal.prim "1.2.0") .fnil)] [],
      p.pkg = (gcpDefaultEx pkgA).pkg ∧
      p.state = spreadMerge (gcpDefaultEx pkgA).state
        (JFields.fcons "version" (JVal.prim "1.2.0") .fnil) ∧
      (∀ k v,
        (JFields.fcons "version" (JVal.prim "1.2.0") .fnil).get k = some v →
        p.state.get k = some v) ∧
      (∀ k, (JFields.fcons "version" (JVal.prim "1.2.0") .fnil).get k = none →
        p.state.get k = (gcpDefaultEx pkgA).state.get k) :=
  restoreBackup_merge_semantics gcpDefaultEx [pkgA]
    [("pkgA", JFields.fcons "version" (JVal.prim "1.2.0") .fnil)] []
    "pkgA" pkgA (JFields.fcons "version" (JVal.prim "1.2.0") .fnil)
    (by decide) (by decide)

/-- C2 fails as stated: restoring the backup state of `"pkgA"`, whose bag
holds the object at address 5, leaves that very object (same address)
reachable from the live parcel state — the spread in `restoreBackup` copies
field values by reference, so live and persisted state do alias. -/
theorem restore_aliasing_counterexample :
    5 ∈ parcelsAddrs (restoreBackup gcpEx [pkgA] backupStateEx []) ∧
    5 ∈ stateAddrs backupStateEx := by decide

/-- C2 amended: `createBackupData` stores full structural clones sharing no
object with the live parcel states, while `restoreBackup` installs the
shallow merge of the default state with the persisted bag, whose field
values are shared by reference with the checkpoint state. -/
theorem backup_aliasing_spec :
    (∀ (options : CommandOptions) (headCommitHash : String)
        (parcels : List Parcel) (heapNext : Nat),
      (∀ a ∈ parcelsAddrs parcels, a < heapNext) →
      ∀ e ∈ (createBackupData options headCommitHash parcels heapNext).1.state,
        (∃ parcel ∈ parcels, e.1 = parcel.pkg.packageName ∧
          e.2.shape = parcel.state.shape) ∧
        ∀ a ∈ e.2.addrs, a ∉ parcelsAddrs parcels) ∧
    (∀ (getCachedParcel : Package → Parcel) (allPackages : List Package)
        (bs : List (String × JFields)) (ps : List Parcel)
        (name : String) (node : Package) (rs : JFields),
      getNode allPackages name = some node → (name, rs) ∈ bs →
      ∃ p ∈ restoreBackup getCachedParcel allPackages bs ps,
        p.state = spreadMerge (getCachedParcel node).state rs ∧
        ∀ k v, rs.get k = some v → p.state.get k = some v) := by
  constructor
  · intro options headCommitHash parcels heapNext hlive e he
    have he2 : e ∈ (parcels.foldl backupFoldStep
        ({ options := pickBackupableOptions options, head := headCommitHash,
           state := [] }, heapNext)).1.state := he
    rcases (backupFold_spec parcels
        ({ options := pickBackupableOptions options, head := headCommitHash,
           state := [] }, heapNext)).2.2.2 e he2 with hinit |
      ⟨parcel, hp, hname, hshape, haddr⟩
    · cases hinit
    · refine ⟨⟨parcel, hp, hname, hshape⟩, ?_⟩
      intro a ha hcontr
      have h1 := haddr a ha
      have h2 := hlive a hcontr
      omega
  · intro getCachedParcel allPackages bs ps name node rs hres hmem
    exact ⟨{ pkg := (getCachedParcel node).pkg,
             state := spreadMerge (getCachedParcel node).state rs },
           restoreBackup_mem_of_resolved getCachedParcel allPackages bs name
             node rs hres hmem ps,
           rfl, fun _ _ h => spreadMerge_get_some _ _ _ _ h⟩

/-- Witness for the amended C2, at a concrete capture and a concrete
restore. -/
theorem backup_aliasing_spec_witness :
    (∀ e ∈ (createBackupData optionsEx "abc123" parcelsEx 3).1.state,
      (∃ parcel ∈ parcelsEx, e.1 = parcel.pkg.packageName ∧
        e.2.shape = parcel.state.shape) ∧
      ∀ a ∈ e.2.addrs, a ∉ parcelsAddrs parcelsEx) ∧
    (∃ p ∈ restoreBackup gcpEx [pkgA] backupStateEx [],
      p.state = spreadMerge (gcpEx pkgA).state
        (JFields.fcons "x" (JVal.obj 5 .fnil) .fnil) ∧
      ∀ k v, (JFields.fcons "x" (JVal.obj 5 .fnil) .fnil).get k = some v →
        p.state.get k = some v) :=
  ⟨backup_aliasing_spec.1 optionsEx "abc123" parcelsEx 3 (by decide),
   backup_aliasing_spec.2 gcpEx [pkgA] backupStateEx [] "pkgA" pkgA
     (JFields.fcons "x" (JVal.obj 5 .fnil) .fnil) (by decide) (by decide)⟩

/-- C6: the payload built by `createBackupData` carries the
checkpoint-relevant option subset, the current head commit hash, and a
state map keyed exactly by the package names of the given parcels. -/
theorem createBackupData_payload (options : CommandOptions)
    (headCommitHash : String) (parcels : List Parcel) (heapNext : Nat) :
    (createBackupData options headCommitHash parcels heapNext).1.options =
      pickBackupableOptions options ∧
    (createBackupData options headCommitHash parcels heapNext).1.head =
      headCommitHash ∧
    ∀ k, (∃ bag, (k, bag) ∈
        (createBackupData options headCommitHash parcels heapNext).1.state) ↔
      k ∈ parcelNames parcels := by
  have h := backupFold_spec parcels
    ({ options := pickBackupableOptions options, head := headCommitHash,
       state := [] }, heapNext)
  refine ⟨h.2.1, h.2.2.1, ?_⟩
  intro k
  have hk := backupFold_keys parcels
    ({ options := pickBackupableOptions options, head := headCommitHash,
       state := [] }, heapNext) k
  simp only [List.not_mem_nil, exists_false, false_or] at hk
  exact hk

/-- Witness for C6 at concrete options, head and parcels. -/
theorem createBackupData_payload_witness :
    (createBackupData optionsEx "abc123" parcelsEx 3).1.options =
      pickBackupableOptions optionsEx ∧
    (createBackupData optionsEx "abc123" parcelsEx 3).1.head = "abc123" ∧
    (∃ bag, ("pkgA", bag) ∈
      (createBackupData optionsEx "abc123" parcelsEx 3).1.state) :=
  ⟨(createBackupData_payload optionsEx "abc123" parcelsEx 3).1,
   (createBackupData_payload optionsEx "abc123" parcelsEx 3).2.1,
   ((createBackupData_payload optionsEx "abc123" parcelsEx 3).2.2 "pkgA").mpr
     (by decide)⟩

/-! ## Claims about `main`, the hooks and task selection -/

/-- C7 fails as stated: the first statement of `main` mutates the options
object, replacing its `packageNames` field by the positional arguments. -/
theorem main_mutates_options :
    mainSetPackageNames ["expo-gl"] { optionsEx with packageNames := [] } ≠
      { optionsEx with packageNames := [] } := by decide

/-- C7 amended: apart from the entry assignment of `packageNames` in
`main`, no operation of the run — task selection or any backup hook —
modifies a field of the options object. -/
theorem runOps_preserve_options (getCachedParcel : Package → Parcel)
    (allPackages : List Package) (ops : List RunOp) (s : RunState)
    (h : ∀ op ∈ ops, op.isSetPackageNames = false) :
    (runOps getCachedParcel allPackages ops s).options = s.options := by
  induction ops generalizing s with
  | nil => rfl
  | cons op ops ih =>
      have hop : (runOpStep getCachedParcel allPackages op s).options =
          s.options := by
        cases op with
        | setPackageNames ns =>
            exact absurd (h _ (List.mem_cons_self _ _))
              (by simp [RunOp.isSetPackageNames])
        | selectTasks => rfl
        | validate headCommitHash => rfl
        | shouldUse => rfl
        | createData headCommitHash ts => rfl
        | restore =>
            cases hb : s.backup with
            | none => simp [runOpStep, hb]
            | some b =>
                cases hd : b.data with
                | none => simp [runOpStep, hb, hd]
                | some d => simp [runOpStep, hb, hd]
        | validationFailed => rfl
      calc (runOps getCachedParcel allPackages (op :: ops) s).options
          = (runOps getCachedParcel allPackages ops
              (runOpStep getCachedParcel allPackages op s)).options := rfl
        _ = (runOpStep getCachedParcel allPackages op s).options :=
              ih _ (fun op2 h2 => h op2 (List.mem_cons_of_mem _ h2))
        _ = s.options := hop

/-- Witness for the amended C7: a run performing task selection, all hooks
and a restore leaves the concrete options untouched. -/
theorem runOps_preserve_options_witness :
    (runOps gcpEx [pkgA] runOpsEx runStateEx).options = runStateEx.options :=
  runOps_preserve_options gcpEx [pkgA] runOpsEx runStateEx (by decide)

/-- C8: `backupValidationFailed` only emits its warning: options, parcels,
backup document, selected tasks and allocation counter are untouched, and
exactly the warning is appended to the log. -/
theorem backupValidationFailed_frame (s : RunState) :
    (backupValidationFailedStep s).options = s.options ∧
    (backupValidationFailedStep s).parcels = s.parcels ∧
    (backupValidationFailedStep s).backup = s.backup ∧
    (backupValidationFailedStep s).tasks = s.tasks ∧
    (backupValidationFailedStep s).heapNext = s.heapNext ∧
    (backupValidationFailedStep s).log = s.log ++ [backupValidationFailedMsg] :=
  ⟨rfl, rfl, rfl, rfl, rfl, rfl⟩

/-- C9: `tasksForOptions` always selects exactly one task, following the
precedence listUnpublished, then grantAccess, then checkIntegrity, then
canary, then the default publish pipeline; lower-precedence flags are
ignored when a higher one is set. -/
theorem tasksForOptions_exclusive (o : CommandOptions) :
    (tasksForOptions o).length = 1 ∧
    (o.listUnpublished = true → tasksForOptions o = [.listUnpublished]) ∧
    (o.listUnpublished = false → o.grantAccess = true →
      tasksForOptions o = [.grantTeamAccessToPackages]) ∧
    (o.listUnpublished = false → o.grantAccess = false →
      o.checkIntegrity = true →
      tasksForOptions o = [.checkPackagesIntegrity]) ∧
    (o.listUnpublished = false → o.grantAccess = false →
      o.checkIntegrity = false → o.canary = true →
      tasksForOptions o = [.publishCanaryPipeline]) ∧
    (o.listUnpublished = false → o.grantAccess = false →
      o.checkIntegrity = false → o.canary = false →
      tasksForOptions o = [.publishPackagesPipeline]) := by
  cases h1 : o.listUnpublished <;> cases h2 : o.grantAccess <;>
    cases h3 : o.checkIntegrity <;> cases h4 : o.canary <;>
      simp [tasksForOptions, h1, h2, h3, h4]

/-- Witness for C9: with every exclusive flag set at once, only the
highest-precedence task is selected. -/
theorem tasksForOptions_exclusive_witness :
    tasksForOptions
        { optionsEx with
            listUnpublished := true
            grantAccess := true
            checkIntegrity := true
            canary := true } =
      [PublishTask.listUnpublished] :=
  (tasksForOptions_exclusive _).2.1 rfl
